import Mathlib

/-!
Verification of the ToC-to-PDF-bookmarks converter (`bookmarks.py`).

The development embeds the core pipeline of the program:
* `parse_toc_line` — recognizes one text line as a ToC entry via the pattern
  `^(\d+(?:\.\d+)*)\.?\s+(.+?)\s+(\d+)$` applied to the stripped line,
  strips leader-dot runs from the title, and composes the result;
* `extract_toc_entries` — maps the line parser over paragraph texts;
* `build_bookmark_tree` — folds the entry list into a bookmark forest using
  the latest-seen-ancestor table (node identity is modelled by stable paths
  into the forest, which is faithful because the only mutation the source
  performs on an existing node is appending to its `children` list);
* `tree_to_toc` — depth-first pre-order projection to a flat outline with
  page clamping into `[1, totalPages]`.
-/

/-- Decimal digit test: the ASCII part `0`..`9` of the `\d` class of the
pattern.  Python's `\d` also matches the other Unicode decimal digits; the
statements quantifying over lines carry the ASCII restriction explicitly in
their digit-run hypotheses, so those lines form a sub-family of the lines
the program accepts. -/
def isDig (c : Char) : Bool := 48 ≤ c.toNat && c.toNat ≤ 57

/-- Whitespace test: the exact character set matched by the `\s` class of
the pattern on strings, which is also the set removed by `str.strip()` —
U+0009..U+000D, U+001C..U+001F, the space, U+0085, U+00A0, U+1680,
U+2000..U+200A, U+2028, U+2029, U+202F, U+205F and U+3000. -/
def pyWs (c : Char) : Bool :=
  decide ((9 ≤ c.toNat ∧ c.toNat ≤ 13) ∨ (28 ≤ c.toNat ∧ c.toNat ≤ 32) ∨
    c.toNat = 133 ∨ c.toNat = 160 ∨ c.toNat = 5760 ∨
    (8192 ≤ c.toNat ∧ c.toNat ≤ 8202) ∨ c.toNat = 8232 ∨ c.toNat = 8233 ∨
    c.toNat = 8239 ∨ c.toNat = 8287 ∨ c.toNat = 12288)

/-- The `str.strip()` operation: drop whitespace from both ends. -/
def pyStripList (l : List Char) : List Char :=
  ((l.dropWhile pyWs).reverse.dropWhile pyWs).reverse

/-- Numeric value of a digit string, as computed by `int()` on the match. -/
def digitsToNat (l : List Char) : Nat :=
  l.foldl (fun n c => 10 * n + (c.toNat - 48)) 0

/-- Greedy scan of `\d+(?:\.\d+)*` from the current position: consume
digits, and consume a dot only when a digit follows it (one character of
lookahead).  This is the exact match semantics of group 1: backtracking
into the group can never help, since every continuation of the pattern
fails on a digit. -/
def numRun : List Char → List Char × List Char
  | [] => ([], [])
  | c :: r =>
    if isDig c then (c :: (numRun r).1, (numRun r).2)
    else if c = '.' then
      match r with
      | [] => ([], c :: r)
      | d :: r' =>
        if isDig d then ('.' :: d :: (numRun r').1, (numRun r').2)
        else ([], c :: r)
    else ([], c :: r)

/-- Group 1 of the pattern: fails unless the line starts with a digit,
otherwise returns the greedy `\d+(?:\.\d+)*` match and the rest. -/
def scanNum (l : List Char) : Option (List Char × List Char) :=
  match l with
  | [] => none
  | c :: _ => if isDig c then some (numRun l) else none

/-- Attempt to match the tail `\s+(\d+)$` at a fixed position: a nonempty
whitespace run followed by a nonempty digit run that reaches the end of the
string.  Giving back whitespace or digits can never recover a failure, so
this check is exact. -/
def checkTail (r : List Char) : Option (List Char) :=
  let w := r.takeWhile pyWs
  let d := r.dropWhile pyWs
  if w ≠ [] ∧ d ≠ [] ∧ d.all isDig then some d else none

/-- Lazy expansion of `(.+?)` followed by `\s+(\d+)$`: grow the title by one
character at a time (never across a newline, which `.` cannot match) and
test the tail after each step.  Returns the matched title and digit groups. -/
def lazyT (acc : List Char) : List Char → Option (List Char × List Char)
  | [] => none
  | c :: r =>
    if c = '\n' then none
    else
      match checkTail r with
      | some d => some (acc ++ [c], d)
      | none => lazyT (acc ++ [c]) r

/-- Backtracking over the first `\s+`: try the maximal whitespace run first,
then give characters back to the lazy title one at a time.  The first
argument is the reversed whitespace run still held by `\s+`. -/
def wSearch : List Char → List Char → Option (List Char × List Char)
  | [], _ => none
  | c :: ws, rest =>
    match lazyT [] rest with
    | some res => some res
    | none => wSearch ws (c :: rest)

/-- Full match of `^(\d+(?:\.\d+)*)\.?\s+(.+?)\s+(\d+)$` against a stripped
line, returning the three groups.  The optional dot after group 1 is
consumed whenever present: refusing it puts a dot in front of `\s+`, which
fails immediately, so no further backtracking exists there. -/
def tocMatch (l : List Char) : Option (List Char × List Char × List Char) :=
  match scanNum l with
  | none => none
  | some (g1, r) =>
    let r1 := match r with
      | '.' :: t => t
      | _ => r
    match wSearch (r1.takeWhile pyWs).reverse (r1.dropWhile pyWs) with
    | none => none
    | some (g2, g3) => some (g1, g2, g3)

/-- What a finished dot run contributes to the output of leader-dot
stripping: a single dot stays, a run of two or more is deleted. -/
def emitRun (n : Nat) : List Char := if n = 1 then ['.'] else []

/-- Single pass of the substitution `re.sub(r'\.{2,}', '', s)` with `n`
pending dots already read: a maximal run of dots of length at least two is
deleted, any other character (and a lone dot) is kept. -/
def stripDotsGo (n : Nat) : List Char → List Char
  | [] => emitRun n
  | c :: r =>
    if c = '.' then stripDotsGo (n + 1) r
    else emitRun n ++ c :: stripDotsGo 0 r

/-- Removal of leader-dot runs: the substitution `re.sub(r'\.{2,}', '', s)`,
which deletes every run of two or more consecutive dots and keeps single
dots. -/
def stripDots (l : List Char) : List Char := stripDotsGo 0 l

/-- The line parser `parse_toc_line`: strip the line, match the pattern,
strip the raw title, delete leader-dot runs, strip again, and return the
composed title `"<section-number> <cleaned-title>"`, the level
(dots in the section number plus one) and the page number.  `none` models
the `(None, None, None)` non-match result. -/
def parse_toc_line (s : String) : Option (String × Int × Int) :=
  match tocMatch (pyStripList s.toList) with
  | none => none
  | some (g1, g2, g3) =>
    let cleaned := pyStripList (stripDots (pyStripList g2))
    some (String.mk (g1 ++ ' ' :: cleaned), (g1.count '.' : Int) + 1, (digitsToNat g3 : Int))

/-- A parsed ToC entry as accumulated by `extract_toc_entries`. -/
structure Entry where
  title : String
  level : Int
  page : Int
deriving DecidableEq, Repr

/-- The entry extractor `extract_toc_entries`: strip each paragraph text,
skip blank ones, parse the rest, and keep the successful parses in order. -/
def extract_toc_entries : List String → List Entry
  | [] => []
  | para :: rest =>
    let text := String.mk (pyStripList para.toList)
    (if text = "" then []
     else
       match parse_toc_line text with
       | some (t, l, p) => [⟨t, l, p⟩]
       | none => []) ++ extract_toc_entries rest

/-- A bookmark node, the JSON object built by `build_bookmark_tree`:
`{"title": ..., "dest": [page, "Fit"], "color": {"0":0,"1":0,"2":0},
"bold": false, "italic": false, "children": [...]}`. -/
inductive Node where
  | mk (title : String) (dest : Int × String) (color : Int × Int × Int)
       (bold : Bool) (italic : Bool) (children : List Node)

/-- Title field of a bookmark node. -/
def Node.title : Node → String
  | .mk t _ _ _ _ _ => t

/-- Destination field of a bookmark node (page paired with the fit tag). -/
def Node.dest : Node → Int × String
  | .mk _ d _ _ _ _ => d

/-- Page component of the destination, `node["dest"][0]`. -/
def Node.destPage : Node → Int
  | .mk _ d _ _ _ _ => d.1

/-- Children field of a bookmark node. -/
def Node.children : Node → List Node
  | .mk _ _ _ _ _ ch => ch

/-- Replace the children of a node, keeping every other field.  This is the
functional image of `parent["children"].append(...)` once the new list is
supplied. -/
def withChildren : Node → List Node → Node
  | .mk t d c b i _, ch => .mk t d c b i ch

/-- The five non-children fields of a node, used to compare nodes without
regard to the subtree hanging below them. -/
def nodeFields (n : Node) : String × (Int × String) × (Int × Int × Int) × Bool × Bool :=
  match n with
  | .mk t d c b i _ => (t, d, c, b, i)

/-- The fresh bookmark node built for one entry: dest `[page, "Fit"]`, black
color, no bold, no italic, empty children. -/
def mkBookmarkNode (e : Entry) : Node :=
  .mk e.title (e.page, "Fit") (0, 0, 0) false false []

/-- Level clamping in `build_bookmark_tree`: `max(1, min(int(level), 9))`. -/
def clampLevel (l : Int) : Int := max 1 (min l 9)

/-- Replace the element at one index of a forest, leaving the rest alone
(out-of-range indices change nothing). -/
def modifyAt : List Node → Nat → (Node → Node) → List Node
  | [], _, _ => []
  | x :: r, 0, f => f x :: r
  | x :: r, k + 1, f => x :: modifyAt r k f

/-- Fetch the node addressed by a path of child indices from a forest.  The
first index selects a root, each further index selects a child.  The empty
path addresses nothing. -/
def getAtForest : List Node → List Nat → Option Node
  | _, [] => none
  | F, k :: p =>
    match F[k]? with
    | none => none
    | some n =>
      match p with
      | [] => some n
      | _ :: _ => getAtForest (Node.children n) p

/-- Append a child to the node addressed by a path, the functional image of
`parent["children"].append(node)` on the aliased node object.  Paths stay
valid under this operation because children are only ever appended. -/
def appendAtForest : List Node → List Nat → Node → List Node
  | F, [], _ => F
  | F, k :: p, child =>
    modifyAt F k (fun n =>
      match p with
      | [] => withChildren n (Node.children n ++ [child])
      | _ :: _ => withChildren n (appendAtForest (Node.children n) p child))

/-- Lookup in the latest-seen-ancestor table `last_nodes`; the most recent
binding for a level shadows older ones, as assignment to a dict key does. -/
def lookupLevel (m : List (Int × List Nat)) (k : Int) : Option (List Nat) :=
  (m.find? (fun q => q.1 == k)).map (fun q => q.2)

/-- State of the `build_bookmark_tree` loop: the forest built so far and the
latest-seen-ancestor table.  Node objects are identified by their paths,
which are stable because nodes are never moved, only extended. -/
structure BuildState where
  root : List Node
  lastNodes : List (Int × List Nat)

/-- One iteration of the `build_bookmark_tree` loop: clamp the level, build
the fresh node, then either append it as a root (level 1, or no entry at
level - 1 in the table) or append it to the recorded parent's children;
finally record the new node's path at its own level. -/
def buildStep (st : BuildState) (e : Entry) : BuildState :=
  let level := clampLevel e.level
  let node := mkBookmarkNode e
  if level = 1 then
    { root := st.root ++ [node], lastNodes := (level, [st.root.length]) :: st.lastNodes }
  else
    match lookupLevel st.lastNodes (level - 1) with
    | some ppath =>
      let cnt := match getAtForest st.root ppath with
        | some n => (Node.children n).length
        | none => 0
      { root := appendAtForest st.root ppath node,
        lastNodes := (level, ppath ++ [cnt]) :: st.lastNodes }
    | none =>
      { root := st.root ++ [node], lastNodes := (level, [st.root.length]) :: st.lastNodes }

/-- The tree builder `build_bookmark_tree`: fold the loop body over the
entries starting from an empty forest and empty table. -/
def build_bookmark_tree (entries : List Entry) : List Node :=
  (entries.foldl buildStep ⟨[], []⟩).root

/-- Page clamping of the projector: `max(1, min(page, len(doc)))`. -/
def clampPage (p total : Int) : Int := max 1 (min p total)

/-- The projector `tree_to_toc`: depth-first pre-order walk of the forest,
emitting `(parent_level + 1, title, clamped page)` for each node and then
recursing into its children at the increased level. -/
def tree_to_toc (total : Int) : List Node → Nat → List (Nat × String × Int)
  | [], _ => []
  | Node.mk t d _ _ _ ch :: rest, pl =>
    (pl + 1, t, clampPage d.1 total) :: (tree_to_toc total ch (pl + 1) ++ tree_to_toc total rest pl)

/-- Pre-order flattening of a forest: each node before its subtree, children
in insertion order. -/
def flattenForest : List Node → List Node
  | [] => []
  | Node.mk t d c b i ch :: rest =>
    Node.mk t d c b i ch :: (flattenForest ch ++ flattenForest rest)

/-- The end-to-end example forest: two roots, the first with two children. -/
def exampleForest : List Node :=
  [Node.mk "1 Overview" (5, "Fit") (0, 0, 0) false false
     [Node.mk "1.1 Scope" (6, "Fit") (0, 0, 0) false false [],
      Node.mk "1.2 Goals" (8, "Fit") (0, 0, 0) false false []],
   Node.mk "2 Design" (10, "Fit") (0, 0, 0) false false []]

/-- A list has no two adjacent dots. -/
def noDD : List Char → Bool
  | [] => true
  | [_] => true
  | c :: d :: r => !(c == '.' && d == '.') && noDD (d :: r)

/-- String-level leader-dot stripping, `re.sub(r'\.{2,}', '', s)`. -/
def stripDotsStr (s : String) : String := String.mk (stripDots s.toList)

/-- A well-formed component of a section number: a nonempty digit run. -/
def goodRun (q : List Char) : Bool := !q.isEmpty && q.all isDig

/-- The `.d+.d+...` continuation of a section number built from its runs. -/
def dotsCore : List (List Char) → List Char
  | [] => []
  | q :: ps => '.' :: (q ++ dotsCore ps)

/-- A section number assembled from its digit runs, separated by dots. -/
def sectionCore : List (List Char) → List Char
  | [] => []
  | q :: ps => q ++ dotsCore ps

/-- A position at which the greedy section-number scan must stop: the end of
input, a character that is neither digit nor dot, or a dot not followed by a
digit. -/
def stopOK : List Char → Bool
  | [] => true
  | c :: r =>
    if c = '.' then
      match r with
      | [] => true
      | d :: _ => !isDig d
    else !isDig c

/-- The fields of a bookmark node built for an entry, as a tuple. -/
def entryFields (e : Entry) : String × (Int × String) × (Int × Int × Int) × Bool × Bool :=
  (e.title, (e.page, "Fit"), (0, 0, 0), false, false)

/-- Clamping leaves a page alone when it already lies in range. -/
theorem clampPage_of_mem (p total : Int) (h1 : 1 ≤ p) (h2 : p ≤ total) :
    clampPage p total = p := by
  unfold clampPage
  omega

/-- C2: on the four example lines, extraction yields the four expected
entries, building yields the two-root forest with "1.1 Scope" and
"1.2 Goals" as ordered children of "1 Overview", and projecting (for any
total page count of at least 10) yields the expected flat outline. -/
theorem claim_C2_end_to_end (T : Int) (hT : 10 ≤ T) :
    extract_toc_entries ["1. Overview 5", "1.1 Scope 6", "1.2 Goals 8", "2. Design 10"]
      = [⟨"1 Overview", 1, 5⟩, ⟨"1.1 Scope", 2, 6⟩, ⟨"1.2 Goals", 2, 8⟩, ⟨"2 Design", 1, 10⟩]
    ∧ build_bookmark_tree
        [⟨"1 Overview", 1, 5⟩, ⟨"1.1 Scope", 2, 6⟩, ⟨"1.2 Goals", 2, 8⟩, ⟨"2 Design", 1, 10⟩]
      = exampleForest
    ∧ tree_to_toc T exampleForest 0
      = [(1, "1 Overview", 5), (2, "1.1 Scope", 6), (2, "1.2 Goals", 8), (1, "2 Design", 10)] := by
  refine ⟨by decide, rfl, ?_⟩
  have h5 := clampPage_of_mem 5 T (by omega) (by omega)
  have h6 := clampPage_of_mem 6 T (by omega) (by omega)
  have h8 := clampPage_of_mem 8 T (by omega) (by omega)
  have h10 := clampPage_of_mem 10 T (by omega) hT
  simp [exampleForest, tree_to_toc, h5, h6, h8, h10]

/-- Witness for C2 at the concrete page count 10. -/
theorem claim_C2_witness :
    extract_toc_entries ["1. Overview 5", "1.1 Scope 6", "1.2 Goals 8", "2. Design 10"]
      = [⟨"1 Overview", 1, 5⟩, ⟨"1.1 Scope", 2, 6⟩, ⟨"1.2 Goals", 2, 8⟩, ⟨"2 Design", 1, 10⟩]
    ∧ build_bookmark_tree
        [⟨"1 Overview", 1, 5⟩, ⟨"1.1 Scope", 2, 6⟩, ⟨"1.2 Goals", 2, 8⟩, ⟨"2 Design", 1, 10⟩]
      = exampleForest
    ∧ tree_to_toc 10 exampleForest 0
      = [(1, "1 Overview", 5), (2, "1.1 Scope", 6), (2, "1.2 Goals", 8), (1, "2 Design", 10)] :=
  claim_C2_end_to_end 10 (by omega)

/-- C5 (general part and orphan example): whenever the clamped level exceeds
one and the latest-seen-ancestor table has no entry at the immediate parent
level, the loop body appends the new node as a root; on the single line
"2.1 Sub 4" the whole pipeline returns one root node titled "2.1 Sub". -/
theorem claim_C5_root_fallback :
    (∀ (st : BuildState) (e : Entry),
        1 < clampLevel e.level →
        lookupLevel st.lastNodes (clampLevel e.level - 1) = none →
        (buildStep st e).root = st.root ++ [mkBookmarkNode e])
    ∧ build_bookmark_tree (extract_toc_entries ["2.1 Sub 4"])
        = [Node.mk "2.1 Sub" (4, "Fit") (0, 0, 0) false false []] := by
  constructor
  · intro st e hl hnone
    have hne : ¬ clampLevel e.level = 1 := by omega
    simp only [buildStep, hne, if_false, hnone]
  · rfl

/-- Witness for C5 applying the fallback step at a concrete state and entry. -/
theorem claim_C5_witness :
    (buildStep ⟨[], []⟩ ⟨"2.1 Sub", 2, 4⟩).root = [] ++ [mkBookmarkNode ⟨"2.1 Sub", 2, 4⟩]
    ∧ build_bookmark_tree (extract_toc_entries ["2.1 Sub 4"])
        = [Node.mk "2.1 Sub" (4, "Fit") (0, 0, 0) false false []] :=
  ⟨claim_C5_root_fallback.1 ⟨[], []⟩ ⟨"2.1 Sub", 2, 4⟩ (by decide) (by decide),
   claim_C5_root_fallback.2⟩

/-- C9: with clamped levels [1, 2, 1, 3], the fourth node is attached under
the second (stale level-2) node inside the first root's subtree, not under
the third root that precedes it. -/
theorem claim_C9_stale_ancestor (e1 e2 e3 e4 : Entry)
    (h1 : clampLevel e1.level = 1) (h2 : clampLevel e2.level = 2)
    (h3 : clampLevel e3.level = 1) (h4 : clampLevel e4.level = 3) :
    build_bookmark_tree [e1, e2, e3, e4]
      = [Node.mk e1.title (e1.page, "Fit") (0, 0, 0) false false
           [Node.mk e2.title (e2.page, "Fit") (0, 0, 0) false false
              [Node.mk e4.title (e4.page, "Fit") (0, 0, 0) false false []]],
         Node.mk e3.title (e3.page, "Fit") (0, 0, 0) false false []] := by
  simp [build_bookmark_tree, buildStep, h1, h2, h3, h4, lookupLevel, mkBookmarkNode,
        getAtForest, appendAtForest, modifyAt, withChildren, Node.children, List.find?]

/-- Witness for C9 at concrete entries with raw levels 1, 2, 1, 3. -/
theorem claim_C9_witness :
    build_bookmark_tree [⟨"a", 1, 1⟩, ⟨"b", 2, 2⟩, ⟨"c", 1, 3⟩, ⟨"d", 3, 4⟩]
      = [Node.mk "a" (1, "Fit") (0, 0, 0) false false
           [Node.mk "b" (2, "Fit") (0, 0, 0) false false
              [Node.mk "d" (4, "Fit") (0, 0, 0) false false []]],
         Node.mk "c" (3, "Fit") (0, 0, 0) false false []] :=
  claim_C9_stale_ancestor ⟨"a", 1, 1⟩ ⟨"b", 2, 2⟩ ⟨"c", 1, 3⟩ ⟨"d", 3, 4⟩
    (by decide) (by decide) (by decide) (by decide)

/-- C3 counterexample: the line "1. .... 5" has a title that is empty after
leader-dot stripping and trimming, yet the parser returns a parsed entry
(with the composed title "1 "), not the non-match result. -/
theorem claim_C3_counterexample :
    pyStripList (stripDots (pyStripList "....".toList)) = []
    ∧ parse_toc_line "1. .... 5" = some ("1 ", 1, 5) := by
  constructor
  · decide
  · decide

/-- C4 counterexample: the line "1. Intro 0" parses successfully with page
0, so a successfully parsed page need not be at least 1. -/
theorem claim_C4_counterexample :
    parse_toc_line "1. Intro 0" = some ("1 Intro", 1, 0) ∧ ¬ (1 ≤ (0 : Int)) := by
  constructor
  · decide
  · decide

/-- C4 amended: every successfully parsed page is a non-negative integer
(the page group is a digit run, so its value is at least 0; a literal "0"
page is accepted, so 0 itself occurs). -/
theorem claim_C4_page_nonneg (s : String) (t : String) (l p : Int)
    (h : parse_toc_line s = some (t, l, p)) : 0 ≤ p := by
  unfold parse_toc_line at h
  cases htm : tocMatch (pyStripList s.toList) with
  | none => rw [htm] at h; exact absurd h (by simp)
  | some g =>
    obtain ⟨g1, g2, g3⟩ := g
    rw [htm] at h
    simp only [Option.some.injEq, Prod.mk.injEq] at h
    have hp : p = (digitsToNat g3 : Int) := h.2.2.symm
    rw [hp]
    exact Int.natCast_nonneg _

/-- Witness for the amended C4 at the line "1. Intro 0". -/
theorem claim_C4_witness : 0 ≤ (0 : Int) :=
  claim_C4_page_nonneg "1. Intro 0" "1 Intro" 1 0 (by decide)

/-- Prepending a non-dot character never creates an adjacent dot pair. -/
theorem noDD_cons (c : Char) (m : List Char) (hc : c ≠ '.') :
    noDD (c :: m) = noDD m := by
  cases m with
  | nil => rfl
  | cons d r =>
    simp only [noDD, Bool.and_eq_true]
    have : (c == '.') = false := by simp [hc]
    simp [this]

/-- The tail of a list with no adjacent dot pair has none either. -/
theorem noDD_tail (c : Char) (m : List Char) (h : noDD (c :: m) = true) :
    noDD m = true := by
  cases m with
  | nil => rfl
  | cons d r =>
    simp only [noDD, Bool.and_eq_true] at h
    exact h.2

/-- After a dot that opens no deleted run, the next character is not a dot. -/
theorem noDD_head (m : List Char) (h : noDD ('.' :: m) = true) :
    ∀ d, m.head? = some d → d ≠ '.' := by
  intro d hd he
  cases m with
  | nil => simp at hd
  | cons x r =>
    simp only [List.head?_cons, Option.some.injEq] at hd
    subst hd; subst he
    simp [noDD] at h

/-- The output of leader-dot stripping never contains two adjacent dots. -/
theorem noDD_stripDotsGo : ∀ (l : List Char) (n : Nat), noDD (stripDotsGo n l) = true := by
  intro l
  induction l with
  | nil =>
    intro n
    simp only [stripDotsGo, emitRun]
    split <;> rfl
  | cons c r ih =>
    intro n
    by_cases hc : c = '.'
    · subst hc; simp only [stripDotsGo, if_pos rfl]; exact ih (n + 1)
    · simp only [stripDotsGo, if_neg hc, emitRun]
      by_cases hn : n = 1
      · simp only [hn, if_pos rfl, List.cons_append, List.nil_append]
        have h1 : noDD (c :: stripDotsGo 0 r) = noDD (stripDotsGo 0 r) := noDD_cons c _ hc
        have h2 : (c == '.') = false := by simp [hc]
        simp [noDD, h2, h1, ih 0]
      · simp only [if_neg hn, List.nil_append]
        rw [noDD_cons c _ hc]
        exact ih 0

/-- Lists without adjacent dot pairs are fixed points of leader-dot
stripping; stated together with the variant that has one pending dot. -/
theorem stripDotsGo_fix : ∀ (m : List Char), noDD m = true →
    (stripDotsGo 0 m = m ∧ (m.head? ≠ some '.' → stripDotsGo 1 m = '.' :: m)) := by
  intro m
  induction m with
  | nil => exact fun _ => ⟨rfl, fun _ => rfl⟩
  | cons c r ih =>
    intro h
    have hr := noDD_tail c r h
    constructor
    · by_cases hc : c = '.'
      · subst hc
        simp only [stripDotsGo, if_pos rfl]
        refine ((ih hr).2 ?_)
        intro hh
        exact noDD_head r h '.' hh rfl
      · simp only [stripDotsGo, if_neg hc, emitRun, if_neg (by omega : ¬ (0 = 1)),
          List.nil_append]
        rw [(ih hr).1]
    · intro hh
      have hc : c ≠ '.' := by
        intro he; exact hh (by simp [he])
      simp only [stripDotsGo, if_neg hc]
      rw [(ih hr).1]
      simp [emitRun]

/-- The projector distributes over forest concatenation. -/
theorem tree_to_toc_append (T : Int) :
    ∀ (A B : List Node) (pl : Nat),
      tree_to_toc T (A ++ B) pl = tree_to_toc T A pl ++ tree_to_toc T B pl
  | [], B, pl => by simp [tree_to_toc]
  | Node.mk t d c b i ch :: rest, B, pl => by
    simp only [List.cons_append, tree_to_toc, tree_to_toc_append T rest B pl,
      List.append_assoc]

/-- Forgetting depths, the projector emits exactly the pre-order flattening
of the forest, each node contributing its title and clamped page. -/
theorem tree_to_toc_snd (T : Int) :
    ∀ (F : List Node) (pl : Nat),
      (tree_to_toc T F pl).map (fun r => r.2)
        = (flattenForest F).map (fun nd => (Node.title nd, clampPage (Node.destPage nd) T))
  | [], _ => by simp [tree_to_toc, flattenForest]
  | Node.mk t d c b i ch :: rest, pl => by
    simp only [tree_to_toc, flattenForest, List.map_cons, List.map_append,
      tree_to_toc_snd T ch (pl + 1), tree_to_toc_snd T rest pl, Node.title, Node.destPage]

/-- Every record the projector emits below a parent level has a strictly
larger depth than that level. -/
theorem tree_to_toc_depth (T : Int) :
    ∀ (F : List Node) (pl : Nat) (r : Nat × String × Int),
      r ∈ tree_to_toc T F pl → pl + 1 ≤ r.1
  | [], _, _, h => absurd h (by simp [tree_to_toc])
  | Node.mk t d c b i ch :: rest, pl, r, h => by
    simp only [tree_to_toc, List.mem_cons, List.mem_append] at h
    rcases h with h | h | h
    · subst h; exact Nat.le_refl _
    · have := tree_to_toc_depth T ch (pl + 1) r h
      omega
    · exact tree_to_toc_depth T rest pl r h

/-- The node reached by a path appears in the projected outline with depth
equal to the parent level plus the length of its path. -/
theorem tree_to_toc_path (T : Int) :
    ∀ (path : List Nat) (F : List Node) (pl : Nat) (n : Node),
      getAtForest F path = some n →
      ∃ pre post, tree_to_toc T F pl
        = pre ++ (pl + path.length, Node.title n, clampPage (Node.destPage n) T) :: post
  | [], F, pl, n, h => by simp [getAtForest] at h
  | k :: p, [], pl, n, h => by simp [getAtForest] at h
  | 0 :: p, Node.mk t d c b i ch :: rest, pl, n, h => by
    cases p with
    | nil =>
      have hn : n = Node.mk t d c b i ch := by
        simp only [getAtForest, List.getElem?_cons_zero, Option.some.injEq] at h
        exact h.symm
      subst hn
      exact ⟨[], tree_to_toc T ch (pl + 1) ++ tree_to_toc T rest pl, by
        simp [tree_to_toc, Node.title, Node.destPage]⟩
    | cons j p' =>
      have hch : getAtForest (Node.children (Node.mk t d c b i ch)) (j :: p') = some n := by
        simpa only [getAtForest, List.getElem?_cons_zero] using h
      obtain ⟨pre', post', heq⟩ :=
        tree_to_toc_path T (j :: p') ch (pl + 1) n (by simpa [Node.children] using hch)
      have harith : pl + 1 + (j :: p').length = pl + (0 :: j :: p').length := by
        simp only [List.length_cons]
        omega
      rw [harith] at heq
      refine ⟨(pl + 1, t, clampPage d.1 T) :: pre', post' ++ tree_to_toc T rest pl, ?_⟩
      simp only [tree_to_toc, heq, List.cons_append, List.append_assoc]
  | (k + 1) :: p, x :: rest, pl, n, h => by
    have hrest : getAtForest rest (k :: p) = some n := by
      simpa only [getAtForest, List.getElem?_cons_succ] using h
    obtain ⟨pre', post', heq⟩ := tree_to_toc_path T (k :: p) rest pl n hrest
    cases x with
    | mk t d c b i ch =>
      refine ⟨(pl + 1, t, clampPage d.1 T) :: (tree_to_toc T ch (pl + 1) ++ pre'), post', ?_⟩
      simp only [tree_to_toc, heq, List.cons_append, List.append_assoc, List.cons.injEq,
        List.length_cons, true_and]
termination_by path F => (path.length, F.length)

/-- C6: in the outline emitted by the projector (called at parent level 0 as
in the source), every depth is at least 1; the sequence of (title, page)
records is exactly the pre-order flattening of the forest in children
insertion order; and the node addressed by any path is emitted with depth
equal to the length of its path, its structural nesting depth — so roots get
depth 1 and every child gets its parent's depth plus one, independent of the
parsed level values, which the forest does not even store. -/
theorem claim_C6_projector_depths (T : Int) (F : List Node) :
    (∀ r ∈ tree_to_toc T F 0, 1 ≤ r.1)
    ∧ (tree_to_toc T F 0).map (fun r => r.2)
        = (flattenForest F).map (fun nd => (Node.title nd, clampPage (Node.destPage nd) T))
    ∧ (∀ (path : List Nat) (n : Node), getAtForest F path = some n →
        ∃ pre post, tree_to_toc T F 0
          = pre ++ (path.length, Node.title n, clampPage (Node.destPage n) T) :: post) := by
  refine ⟨?_, tree_to_toc_snd T F 0, ?_⟩
  · intro r hr
    exact tree_to_toc_depth T F 0 r hr
  · intro path n h
    have := tree_to_toc_path T path F 0 n h
    simpa using this

/-- Witness for C6 on a two-level forest: the child at path [0, 0] is
emitted with depth 2, and the depth bound holds at the head record. -/
theorem claim_C6_witness :
    (1 ≤ (1 : Nat))
    ∧ (∃ pre post,
        tree_to_toc 7 [Node.mk "a" (2, "Fit") (0, 0, 0) false false
          [Node.mk "b" (3, "Fit") (0, 0, 0) false false []]] 0
          = pre ++ ([0, 0].length, Node.title (Node.mk "b" (3, "Fit") (0, 0, 0) false false []),
              clampPage (Node.destPage (Node.mk "b" (3, "Fit") (0, 0, 0) false false [])) 7) :: post) :=
  ⟨(claim_C6_projector_depths 7 [Node.mk "a" (2, "Fit") (0, 0, 0) false false
      [Node.mk "b" (3, "Fit") (0, 0, 0) false false []]]).1 (1, "a", 2)
      (by simp [tree_to_toc, clampPage_of_mem 2 7 (by omega) (by omega)]),
   (claim_C6_projector_depths 7 [Node.mk "a" (2, "Fit") (0, 0, 0) false false
      [Node.mk "b" (3, "Fit") (0, 0, 0) false false []]]).2.2 [0, 0]
      (Node.mk "b" (3, "Fit") (0, 0, 0) false false []) (by simp [getAtForest, Node.children])⟩

/-- Bounds of page clamping when the document has at least one page. -/
theorem clampPage_bounds (p T : Int) (hT : 1 ≤ T) :
    1 ≤ clampPage p T ∧ clampPage p T ≤ T := by
  unfold clampPage
  omega

/-- C7: the projector emits, for each record, the page of some node of the
forest clamped by `max 1 (min p T)`, and whenever the total page count is at
least 1 the emitted page lies in `[1, T]`; out-of-range pages are clamped,
never dropped (every node is emitted, by the flattening equation). -/
theorem claim_C7_page_clamping (T : Int) (F : List Node) (r : Nat × String × Int)
    (hT : 1 ≤ T) (hr : r ∈ tree_to_toc T F 0) :
    (∀ p : Int, clampPage p T = max 1 (min p T))
    ∧ ∃ nd ∈ flattenForest F,
        r.2.2 = max 1 (min (Node.destPage nd) T) ∧ 1 ≤ r.2.2 ∧ r.2.2 ≤ T := by
  refine ⟨fun p => rfl, ?_⟩
  have hmem : r.2 ∈ (tree_to_toc T F 0).map (fun q => q.2) := List.mem_map_of_mem _ hr
  rw [tree_to_toc_snd T F 0] at hmem
  obtain ⟨nd, hnd, heq⟩ := List.mem_map.1 hmem
  refine ⟨nd, hnd, ?_, ?_, ?_⟩
  · have : r.2.2 = clampPage (Node.destPage nd) T := by
      rw [← heq]
    rw [this]; rfl
  · have : r.2.2 = clampPage (Node.destPage nd) T := by rw [← heq]
    rw [this]; exact (clampPage_bounds _ T hT).1
  · have : r.2.2 = clampPage (Node.destPage nd) T := by rw [← heq]
    rw [this]; exact (clampPage_bounds _ T hT).2

/-- Witness for C7 on a forest with an out-of-range page: the declared page
9 is clamped to the total 4. -/
theorem claim_C7_witness :
    (∀ p : Int, clampPage p 4 = max 1 (min p 4))
    ∧ ∃ nd ∈ flattenForest [Node.mk "a" (9, "Fit") (0, 0, 0) false false []],
        ((1 : Nat), ("a", (4 : Int))).2.2 = max 1 (min (Node.destPage nd) 4)
        ∧ 1 ≤ ((1 : Nat), ("a", (4 : Int))).2.2 ∧ ((1 : Nat), ("a", (4 : Int))).2.2 ≤ 4 :=
  claim_C7_page_clamping 4 [Node.mk "a" (9, "Fit") (0, 0, 0) false false []]
    (1, "a", 4) (by omega)
    (by
      have h : clampPage 9 4 = 4 := by unfold clampPage; omega
      simp [tree_to_toc, h])

/-- Digits are not whitespace. -/
theorem dig_not_ws (c : Char) (h : isDig c = true) : pyWs c = false := by
  simp only [isDig, Bool.and_eq_true, decide_eq_true_eq] at h
  simp only [pyWs, decide_eq_false_iff_not]
  omega

/-- Step equation of the greedy scan on a digit. -/
theorem numRun_cons_dig (c : Char) (r : List Char) (h : isDig c = true) :
    numRun (c :: r) = (c :: (numRun r).1, (numRun r).2) := by
  rw [numRun.eq_def]
  simp [h]

/-- Step equation of the greedy scan on a dot followed by a digit. -/
theorem numRun_cons_dot (d : Char) (r' : List Char) (h : isDig d = true) :
    numRun ('.' :: d :: r') = ('.' :: d :: (numRun r').1, (numRun r').2) := by
  have hdot : isDig '.' = false := by decide
  rw [numRun.eq_def]
  simp [h, hdot]

/-- The greedy scan stops on a non-digit, non-dot character. -/
theorem numRun_cons_stop (c : Char) (r : List Char) (h1 : isDig c = false)
    (h2 : c ≠ '.') : numRun (c :: r) = ([], c :: r) := by
  rw [numRun.eq_def]
  simp [h1, h2]

/-- The greedy scan stops on a dot not followed by a digit. -/
theorem numRun_dot_stop (d : Char) (r' : List Char) (h : isDig d = false) :
    numRun ('.' :: d :: r') = ([], '.' :: d :: r') := by
  have hdot : isDig '.' = false := by decide
  rw [numRun.eq_def]
  simp [h, hdot]

/-- The greedy scan consumes a leading digit run verbatim. -/
theorem numRun_digits : ∀ (q z : List Char), q.all isDig = true →
    numRun (q ++ z) = (q ++ (numRun z).1, (numRun z).2)
  | [], z, _ => by simp
  | c :: q', z, h => by
    simp only [List.all_cons, Bool.and_eq_true] at h
    rw [List.cons_append, numRun_cons_dig c _ h.1, numRun_digits q' z h.2]
    simp

/-- The greedy scan stops at a stop position. -/
theorem numRun_stop (z : List Char) (h : stopOK z = true) : numRun z = ([], z) := by
  cases z with
  | nil => rfl
  | cons c r =>
    by_cases hc : c = '.'
    · subst hc
      cases r with
      | nil => rfl
      | cons d r' =>
        have hd : isDig d = false := by simpa [stopOK] using h
        exact numRun_dot_stop d r' hd
    · have hcd : isDig c = false := by simpa [stopOK, hc] using h
      exact numRun_cons_stop c r hcd hc

/-- The greedy scan consumes a chain of dot-plus-digit-run groups verbatim
and stops exactly at a stop position. -/
theorem numRun_core : ∀ (ps : List (List Char)) (z : List Char),
    (∀ q ∈ ps, goodRun q = true) → stopOK z = true →
    numRun (dotsCore ps ++ z) = (dotsCore ps, z)
  | [], z, _, hz => by simpa [dotsCore] using numRun_stop z hz
  | q :: ps', z, hgood, hz => by
    have hq := hgood q (List.mem_cons_self q ps')
    simp only [goodRun, Bool.and_eq_true, Bool.not_eq_true'] at hq
    cases q with
    | nil =>
      exact absurd hq.1 (by simp)
    | cons d q' =>
      have hall := hq.2
      simp only [List.all_cons, Bool.and_eq_true] at hall
      simp only [dotsCore, List.cons_append, List.append_assoc]
      rw [numRun_cons_dot d _ hall.1,
        numRun_digits q' (dotsCore ps' ++ z) hall.2,
        numRun_core ps' z (fun q hm => hgood q (List.mem_cons_of_mem _ hm)) hz]

/-- A nonempty list headed by a digit is scanned by group 1. -/
theorem scanNum_eq (c : Char) (r : List Char) (h : isDig c = true) :
    scanNum (c :: r) = some (numRun (c :: r)) := by
  simp [scanNum, h]

/-- Group 1 of the pattern matches a well-formed section number exactly,
leaving the rest at a stop position. -/
theorem scanNum_core (parts : List (List Char)) (z : List Char)
    (hp : parts ≠ []) (hgood : ∀ q ∈ parts, goodRun q = true) (hz : stopOK z = true) :
    scanNum (sectionCore parts ++ z) = some (sectionCore parts, z) := by
  cases parts with
  | nil => exact absurd rfl hp
  | cons q ps =>
    have hq := hgood q (List.mem_cons_self q ps)
    simp only [goodRun, Bool.and_eq_true, Bool.not_eq_true'] at hq
    cases q with
    | nil => exact absurd hq.1 (by simp)
    | cons d q' =>
      have hall := hq.2
      simp only [List.all_cons, Bool.and_eq_true] at hall
      have key := numRun_digits (d :: q') (dotsCore ps ++ z)
        (by simp [List.all_cons, hall.1, hall.2])
      rw [numRun_core ps z (fun q hm => hgood q (List.mem_cons_of_mem _ hm)) hz] at key
      have hsec : sectionCore ((d :: q') :: ps) = (d :: q') ++ dotsCore ps := rfl
      rw [hsec, List.append_assoc, List.cons_append]
      rw [scanNum_eq _ _ hall.1, ← List.cons_append, key]

/-- The tail check succeeds on one space followed by the page digits. -/
theorem checkTail_page (page : List Char) (h1 : page ≠ []) (h2 : page.all isDig = true) :
    checkTail (' ' :: page) = some page := by
  cases page with
  | nil => exact absurd rfl h1
  | cons d p' =>
    simp only [List.all_cons, Bool.and_eq_true] at h2
    have hws : pyWs ' ' = true := by decide
    have hd : pyWs d = false := dig_not_ws d h2.1
    unfold checkTail
    rw [List.takeWhile_cons_of_pos hws, List.takeWhile_cons_of_neg (by simp [hd]),
        List.dropWhile_cons_of_pos hws, List.dropWhile_cons_of_neg (by simp [hd])]
    simp [List.all_cons, h2.1, h2.2]

/-- The tail check fails while the lazy title has not yet consumed the whole
title: the rest still holds a non-whitespace title character before the
separating space, so the digit run cannot reach the end. -/
theorem checkTail_mid (t0 : List Char) (c0 : Char) (page : List Char)
    (hc0 : pyWs c0 = false) :
    checkTail ((t0 ++ [c0]) ++ ' ' :: page) = none := by
  have hne : (t0 ++ [c0]).dropWhile pyWs ≠ [] := by
    intro hnil
    have := List.dropWhile_eq_nil_iff.1 hnil c0 (by simp)
    rw [hc0] at this
    exact absurd this (by simp)
  have hie : ((t0 ++ [c0]).dropWhile pyWs).isEmpty = false := by
    cases hv : (t0 ++ [c0]).dropWhile pyWs with
    | nil => exact absurd hv hne
    | cons a b => rfl
  have hsp : isDig ' ' = false := by decide
  have hall : ((t0 ++ [c0]).dropWhile pyWs ++ ' ' :: page).all isDig = false := by
    simp [List.all_append, List.all_cons, hsp]
  unfold checkTail
  rw [List.dropWhile_append, hie]
  simp [hall]

/-- Step equation of the lazy title when the tail matches after this
character. -/
theorem lazyT_cons_some (acc : List Char) (c : Char) (r dres : List Char)
    (hc : c ≠ '\n') (h : checkTail r = some dres) :
    lazyT acc (c :: r) = some (acc ++ [c], dres) := by
  simp [lazyT, hc, h]

/-- Step equation of the lazy title when the tail does not match yet. -/
theorem lazyT_cons_none (acc : List Char) (c : Char) (r : List Char)
    (hc : c ≠ '\n') (h : checkTail r = none) :
    lazyT acc (c :: r) = lazyT (acc ++ [c]) r := by
  simp [lazyT, hc, h]

/-- The lazy title expansion consumes exactly the title: it cannot stop
early (the tail check fails inside the title, whose last character is not
whitespace) and succeeds at the separating space before the page digits. -/
theorem lazyT_spec : ∀ (t2 acc page : List Char),
    '\n' ∉ t2 →
    (∃ t0 c0, t2 = t0 ++ [c0] ∧ pyWs c0 = false) →
    page ≠ [] → page.all isDig = true →
    lazyT acc (t2 ++ ' ' :: page) = some (acc ++ t2, page)
  | [], _, _, _, hex, _, _ => by
    obtain ⟨t0, c0, he, _⟩ := hex
    exact absurd he.symm (by simp)
  | [c], acc, page, hnl, hex, h1, h2 => by
    have hc : c ≠ '\n' := by
      intro h
      exact hnl (by simp [h])
    rw [List.singleton_append, lazyT_cons_some acc c _ page hc (checkTail_page page h1 h2)]
  | c :: c2 :: t2', acc, page, hnl, hex, h1, h2 => by
    have hc : c ≠ '\n' := by
      intro h
      exact hnl (by simp [h])
    obtain ⟨t0, c0, he, hws⟩ := hex
    have hex' : ∃ t0' c0', c2 :: t2' = t0' ++ [c0'] ∧ pyWs c0' = false := by
      cases t0 with
      | nil => simp at he
      | cons x t0' =>
        rw [List.cons_append] at he
        exact ⟨t0', c0, (List.cons.injEq _ _ _ _ ▸ he).2, hws⟩
    have hmid : checkTail ((c2 :: t2') ++ ' ' :: page) = none := by
      obtain ⟨t0', c0', he', hws'⟩ := hex'
      rw [he']
      exact checkTail_mid t0' c0' page hws'
    rw [List.cons_append, lazyT_cons_none acc c _ hc hmid,
      lazyT_spec (c2 :: t2') (acc ++ [c]) page
        (fun h => hnl (List.mem_cons_of_mem _ h)) hex' h1 h2]
    simp

/-- The whitespace backtracking succeeds immediately when the lazy title
already matches with the full whitespace run consumed. -/
theorem wSearch_hit (c : Char) (ws rest : List Char) (res : List Char × List Char)
    (h : lazyT [] rest = some res) : wSearch (c :: ws) rest = some res := by
  simp [wSearch, h]

/-- Stripping changes nothing when both ends are not whitespace. -/
theorem pyStripList_eq_self (l : List Char)
    (h1 : ∀ c, l.head? = some c → pyWs c = false)
    (h2 : ∀ c, l.getLast? = some c → pyWs c = false) :
    pyStripList l = l := by
  unfold pyStripList
  have hd : l.dropWhile pyWs = l := by
    cases l with
    | nil => rfl
    | cons c r =>
      have := h1 c (by simp)
      exact List.dropWhile_cons_of_neg (by simp [this])
  rw [hd]
  have hr : l.reverse.dropWhile pyWs = l.reverse := by
    cases hrev : l.reverse with
    | nil => rfl
    | cons c r =>
      have hc : l.getLast? = some c := by
        rw [← List.head?_reverse, hrev]
        rfl
      have := h2 c hc
      exact List.dropWhile_cons_of_neg (by simp [this])
  rw [hr, List.reverse_reverse]

/-- The full pattern match on a well-formed line body: group 1 is the
section number, group 2 the raw title, group 3 the page digits. -/
theorem tocMatch_core (parts : List (List Char)) (title page : List Char)
    (hp : parts ≠ []) (hgood : ∀ q ∈ parts, goodRun q = true)
    (hnl : '\n' ∉ title)
    (hhead : ∃ c1 t1, title = c1 :: t1 ∧ pyWs c1 = false)
    (hlast : ∃ t0 c0, title = t0 ++ [c0] ∧ pyWs c0 = false)
    (hpg : page ≠ []) (hpgd : page.all isDig = true) (optDot : Bool) :
    tocMatch (sectionCore parts
        ++ ((if optDot then ['.'] else []) ++ ' ' :: (title ++ ' ' :: page)))
      = some (sectionCore parts, title, page) := by
  have hsp : isDig ' ' = false := by decide
  obtain ⟨c1, t1, hht, hc1⟩ := hhead
  have htw : (' ' :: (title ++ ' ' :: page)).takeWhile pyWs = [' '] := by
    rw [hht, List.cons_append, List.takeWhile_cons_of_pos (by decide),
      List.takeWhile_cons_of_neg (by simp [hc1])]
  have hdw : (' ' :: (title ++ ' ' :: page)).dropWhile pyWs = title ++ ' ' :: page := by
    rw [hht, List.cons_append, List.dropWhile_cons_of_pos (by decide),
      List.dropWhile_cons_of_neg (by simp [hc1]), ← List.cons_append, ← hht]
  have hlz := lazyT_spec title [] page hnl hlast hpg hpgd
  have hw : wSearch [' '] (title ++ ' ' :: page) = some (title, page) :=
    wSearch_hit ' ' [] _ _ (by simpa using hlz)
  cases optDot with
  | false =>
    have hstop : stopOK (' ' :: (title ++ ' ' :: page)) = true := by
      simp [stopOK, hsp]
    have hscan := scanNum_core parts (' ' :: (title ++ ' ' :: page)) hp hgood hstop
    simp [tocMatch, hscan, htw, hdw, hw]
  | true =>
    have hstop : stopOK ('.' :: ' ' :: (title ++ ' ' :: page)) = true := by
      simp [stopOK, hsp]
    have hscan := scanNum_core parts ('.' :: ' ' :: (title ++ ' ' :: page)) hp hgood hstop
    simp [tocMatch, hscan, htw, hdw, hw]

/-- The line parser on a well-formed line `<nums> <title> <page>`: the
composed title keeps the section number (without the optional trailing
dot), the cleaned title is the raw title with leader-dot runs deleted and
whitespace trimmed, the level is the dot count of the section number plus
one, and the page is the numeric value of the digit run. -/
theorem parse_valid_line (parts : List (List Char)) (optDot : Bool)
    (title page : List Char)
    (hp : parts ≠ []) (hgood : ∀ q ∈ parts, goodRun q = true)
    (hnl : '\n' ∉ title)
    (hhead : ∃ c1 t1, title = c1 :: t1 ∧ pyWs c1 = false)
    (hlast : ∃ t0 c0, title = t0 ++ [c0] ∧ pyWs c0 = false)
    (hpg : page ≠ []) (hpgd : page.all isDig = true) :
    parse_toc_line (String.mk (sectionCore parts
        ++ ((if optDot then ['.'] else []) ++ ' ' :: (title ++ ' ' :: page))))
      = some (String.mk (sectionCore parts ++ ' ' :: pyStripList (stripDots title)),
              ((sectionCore parts).count '.' : Int) + 1,
              (digitsToNat page : Int)) := by
  obtain ⟨c1, t1, hht, hc1⟩ := hhead
  obtain ⟨t0, c0, hlt, hc0⟩ := hlast
  -- head and last characters of the whole line are not whitespace
  obtain ⟨q, ps, rfl⟩ : ∃ q ps, parts = q :: ps := by
    cases parts with
    | nil => exact absurd rfl hp
    | cons q ps => exact ⟨q, ps, rfl⟩
  have hq := hgood q (List.mem_cons_self q ps)
  simp only [goodRun, Bool.and_eq_true, Bool.not_eq_true'] at hq
  obtain ⟨d, q', rfl⟩ : ∃ d q', q = d :: q' := by
    cases q with
    | nil => exact absurd hq.1 (by simp)
    | cons d q' => exact ⟨d, q', rfl⟩
  have hall := hq.2
  simp only [List.all_cons, Bool.and_eq_true] at hall
  obtain ⟨p0, pc, hpdec⟩ : ∃ p0 pc, page = p0 ++ [pc] := by
    rcases List.eq_nil_or_concat page with h | ⟨p0, pc, h⟩
    · exact absurd h hpg
    · exact ⟨p0, pc, by simpa [List.concat_eq_append] using h⟩
  have hpc : isDig pc = true := by
    have := hpgd
    rw [hpdec] at this
    simp only [List.all_append, List.all_cons, Bool.and_eq_true] at this
    exact this.2.1
  -- the full line, unchanged by the initial strip
  have hLhead : ∀ c, ((d :: q') ++ dotsCore ps
      ++ ((if optDot then ['.'] else []) ++ ' ' :: (title ++ ' ' :: page))).head? = some c →
      pyWs c = false := by
    intro c hc
    simp only [List.cons_append, List.head?_cons, Option.some.injEq] at hc
    rw [← hc]
    exact dig_not_ws d hall.1
  have hLlast : ∀ c, ((d :: q') ++ dotsCore ps
      ++ ((if optDot then ['.'] else []) ++ ' ' :: (title ++ ' ' :: page))).getLast? = some c →
      pyWs c = false := by
    intro c hc
    rw [hpdec] at hc
    have hrw : (d :: q') ++ dotsCore ps
        ++ ((if optDot then ['.'] else []) ++ ' ' :: (title ++ ' ' :: (p0 ++ [pc])))
        = ((d :: q') ++ dotsCore ps
            ++ ((if optDot then ['.'] else []) ++ ' ' :: (title ++ ' ' :: p0))) ++ [pc] := by
      simp
    rw [hrw, List.getLast?_concat] at hc
    simp only [Option.some.injEq] at hc
    rw [← hc]
    exact dig_not_ws pc hpc
  have hsec : sectionCore ((d :: q') :: ps) = (d :: q') ++ dotsCore ps := rfl
  have hmatch := tocMatch_core ((d :: q') :: ps) title page hp hgood hnl
    ⟨c1, t1, hht, hc1⟩ ⟨t0, c0, hlt, hc0⟩ hpg hpgd optDot
  -- title itself is unchanged by its strip
  have htitle_strip : pyStripList title = title := by
    refine pyStripList_eq_self title ?_ ?_
    · intro c hc
      rw [hht] at hc
      simp only [List.head?_cons, Option.some.injEq] at hc
      rw [← hc]
      exact hc1
    · intro c hc
      rw [hlt, List.getLast?_concat] at hc
      simp only [Option.some.injEq] at hc
      rw [← hc]
      exact hc0
  unfold parse_toc_line
  have htl : (String.mk (sectionCore ((d :: q') :: ps)
      ++ ((if optDot then ['.'] else []) ++ ' ' :: (title ++ ' ' :: page)))).toList
      = sectionCore ((d :: q') :: ps)
        ++ ((if optDot then ['.'] else []) ++ ' ' :: (title ++ ' ' :: page)) := rfl
  rw [htl]
  have hstripL : pyStripList (sectionCore ((d :: q') :: ps)
      ++ ((if optDot then ['.'] else []) ++ ' ' :: (title ++ ' ' :: page)))
      = sectionCore ((d :: q') :: ps)
        ++ ((if optDot then ['.'] else []) ++ ' ' :: (title ++ ' ' :: page)) := by
    refine pyStripList_eq_self _ ?_ ?_
    · rw [hsec, List.append_assoc]
      intro c hc
      exact hLhead c (by simpa [List.append_assoc] using hc)
    · rw [hsec, List.append_assoc]
      intro c hc
      exact hLlast c (by simpa [List.append_assoc] using hc)
  rw [hstripL, hmatch]
  simp only [htitle_strip]

/-- C1: on every line of the form `<nums> <title> <page>` — where `<nums>`
is a nonempty chain of dot-separated digit runs with an optional trailing
dot, `<title>` is nonempty, free of newlines and ends/starts with
non-whitespace, and `<page>` is a digit run — the parser returns exactly the
composed title `<nums> <title-with-leader-dot-runs-deleted-and-trimmed>`
(with the trailing dot of the number not kept), the level equal to the
number of dots in the section number plus one, and the numeric page. -/
theorem claim_C1_valid_line (parts : List (List Char)) (optDot : Bool)
    (title page : List Char)
    (hp : parts ≠ []) (hgood : ∀ q ∈ parts, goodRun q = true)
    (hnl : '\n' ∉ title)
    (hhead : ∃ c1 t1, title = c1 :: t1 ∧ pyWs c1 = false)
    (hlast : ∃ t0 c0, title = t0 ++ [c0] ∧ pyWs c0 = false)
    (hpg : page ≠ []) (hpgd : page.all isDig = true) :
    parse_toc_line (String.mk (sectionCore parts
        ++ ((if optDot then ['.'] else []) ++ ' ' :: (title ++ ' ' :: page))))
      = some (String.mk (sectionCore parts ++ ' ' :: pyStripList (stripDots title)),
              ((sectionCore parts).count '.' : Int) + 1,
              (digitsToNat page : Int)) :=
  parse_valid_line parts optDot title page hp hgood hnl hhead hlast hpg hpgd

/-- Witness for C1 on the concrete line "1. A 7". -/
theorem claim_C1_witness :
    parse_toc_line (String.mk (sectionCore [['1']]
        ++ ((if true then ['.'] else []) ++ ' ' :: (['A'] ++ ' ' :: ['7']))))
      = some (String.mk (sectionCore [['1']] ++ ' ' :: pyStripList (stripDots ['A'])),
              ((sectionCore [['1']]).count '.' : Int) + 1,
              (digitsToNat ['7'] : Int)) :=
  claim_C1_valid_line [['1']] true ['A'] ['7'] (by decide) (by decide) (by decide)
    ⟨'A', [], rfl, by decide⟩ ⟨[], 'A', rfl, by decide⟩ (by decide) (by decide)

/-- Stripping a pure run of dots leaves the run's contribution only. -/
theorem stripDotsGo_replicate : ∀ (k n : Nat),
    stripDotsGo n (List.replicate k '.') = emitRun (n + k)
  | 0, n => rfl
  | k + 1, n => by
    rw [List.replicate_succ]
    have h : n + 1 + k = n + (k + 1) := by omega
    simp [stripDotsGo, stripDotsGo_replicate k (n + 1), h]

/-- C3 amended: a line whose title is a pure leader-dot run (which cleans to
the empty string) still parses; the result is the section number followed by
a single trailing space, with the usual level and page. -/
theorem claim_C3_empty_title_parses (parts : List (List Char)) (optDot : Bool)
    (k : Nat) (page : List Char)
    (hp : parts ≠ []) (hgood : ∀ q ∈ parts, goodRun q = true) (hk : 2 ≤ k)
    (hpg : page ≠ []) (hpgd : page.all isDig = true) :
    parse_toc_line (String.mk (sectionCore parts
        ++ ((if optDot then ['.'] else []) ++ ' ' :: (List.replicate k '.' ++ ' ' :: page))))
      = some (String.mk (sectionCore parts ++ [' ']),
              ((sectionCore parts).count '.' : Int) + 1,
              (digitsToNat page : Int)) := by
  obtain ⟨k', rfl⟩ : ∃ k', k = k' + 2 := ⟨k - 2, by omega⟩
  have hnl : '\n' ∉ List.replicate (k' + 2) '.' := by
    simp [List.mem_replicate]
  have hhead : ∃ c1 t1, List.replicate (k' + 2) '.' = c1 :: t1 ∧ pyWs c1 = false :=
    ⟨'.', List.replicate (k' + 1) '.', by simp [List.replicate_succ], by decide⟩
  have hlast : ∃ t0 c0, List.replicate (k' + 2) '.' = t0 ++ [c0] ∧ pyWs c0 = false :=
    ⟨List.replicate (k' + 1) '.', '.', List.replicate_succ' (k' + 1) '.', by decide⟩
  have hsd : stripDots (List.replicate (k' + 2) '.') = [] := by
    unfold stripDots
    rw [stripDotsGo_replicate]
    simp only [emitRun, Nat.zero_add]
    rw [if_neg (by omega)]
  rw [parse_valid_line parts optDot (List.replicate (k' + 2) '.') page hp hgood hnl
    hhead hlast hpg hpgd, hsd]
  rfl

/-- Replacing children leaves the children projection with the new list. -/
theorem children_withChildren (n : Node) (ch : List Node) :
    Node.children (withChildren n ch) = ch := by
  cases n
  rfl

/-- Replacing children does not change the other fields. -/
theorem nodeFields_withChildren (n : Node) (ch : List Node) :
    nodeFields (withChildren n ch) = nodeFields n := by
  cases n
  rfl

/-- Step equation for path lookup. -/
theorem getAtForest_cons (F : List Node) (k : Nat) (p : List Nat) :
    getAtForest F (k :: p)
      = match F[k]? with
        | none => none
        | some n =>
          match p with
          | [] => some n
          | _ :: _ => getAtForest (Node.children n) p := by
  rw [getAtForest.eq_def]

/-- Path lookup fails when the first index is out of range. -/
theorem getAt_cons_none (F : List Node) (k : Nat) (p : List Nat) (h : F[k]? = none) :
    getAtForest F (k :: p) = none := by
  rw [getAtForest_cons, h]

/-- A one-step path returns the indexed root. -/
theorem getAt_cons_nil (F : List Node) (k : Nat) (n : Node) (h : F[k]? = some n) :
    getAtForest F [k] = some n := by
  rw [getAtForest_cons, h]

/-- A longer path descends into the children of the indexed root. -/
theorem getAt_cons_cons (F : List Node) (k : Nat) (n : Node) (j : Nat) (p' : List Nat)
    (h : F[k]? = some n) :
    getAtForest F (k :: j :: p') = getAtForest (Node.children n) (j :: p') := by
  rw [getAtForest_cons, h]

/-- Path lookup ignores a skipped head node. -/
theorem getAt_cons_succ (x : Node) (rest : List Node) (k : Nat) (p : List Nat) :
    getAtForest (x :: rest) ((k + 1) :: p) = getAtForest rest (k :: p) := by
  rw [getAtForest_cons, getAtForest_cons, List.getElem?_cons_succ]

/-- Element lookup after a point modification. -/
theorem modifyAt_getElem? : ∀ (F : List Node) (k j : Nat) (f : Node → Node),
    (modifyAt F k f)[j]? = if j = k then (F[k]?).map f else F[j]?
  | [], k, j, f => by
    simp [modifyAt]
  | x :: r, 0, j, f => by
    cases j with
    | zero => simp [modifyAt]
    | succ j' => simp [modifyAt]
  | x :: r, k + 1, j, f => by
    cases j with
    | zero => simp [modifyAt]
    | succ j' =>
      simp only [modifyAt, List.getElem?_cons_succ, modifyAt_getElem? r k j' f]
      by_cases h : j' = k
      · simp [h]
      · simp [h, fun hc => h (Nat.succ_injective hc)]

/-- Path lookup is preserved by appending new roots on the right. -/
theorem getAt_append (q : List Nat) (F G : List Node) (m : Node)
    (h : getAtForest F q = some m) : getAtForest (F ++ G) q = some m := by
  cases q with
  | nil => simp [getAtForest] at h
  | cons k p =>
    cases hk : F[k]? with
    | none => rw [getAt_cons_none F k p hk] at h; exact absurd h (by simp)
    | some n =>
      have hlt : k < F.length := by
        by_contra hc
        rw [List.getElem?_eq_none (by omega)] at hk
        exact Option.noConfusion hk
      have hk' : (F ++ G)[k]? = some n := by
        rw [List.getElem?_append_left hlt]
        exact hk
      cases p with
      | nil =>
        rw [getAt_cons_nil F k n hk] at h
        rw [getAt_cons_nil (F ++ G) k n hk']
        exact h
      | cons j p' =>
        rw [getAt_cons_cons F k n j p' hk] at h
        rw [getAt_cons_cons (F ++ G) k n j p' hk']
        exact h

/-- The freshly appended root sits at index equal to the old length. -/
theorem getAt_concat_new (F : List Node) (n : Node) :
    getAtForest (F ++ [n]) [F.length] = some n :=
  getAt_cons_nil (F ++ [n]) F.length n (List.getElem?_concat_length F n)

/-- Step equation of the child append when the path has one index left. -/
theorem appendAt_cons_nil (F : List Node) (k : Nat) (child : Node) :
    appendAtForest F (k :: []) child
      = modifyAt F k (fun n => withChildren n (Node.children n ++ [child])) := rfl

/-- Step equation of the child append on a longer path. -/
theorem appendAt_cons_cons (F : List Node) (k j : Nat) (p' : List Nat) (child : Node) :
    appendAtForest F (k :: j :: p') child
      = modifyAt F k (fun n =>
          withChildren n (appendAtForest (Node.children n) (j :: p') child)) := rfl

/-- Pre-order flattening distributes over forest concatenation. -/
theorem flattenForest_append : ∀ (A B : List Node),
    flattenForest (A ++ B) = flattenForest A ++ flattenForest B
  | [], B => by simp [flattenForest]
  | Node.mk t d c b i ch :: rest, B => by
    simp [flattenForest, flattenForest_append rest B]

/-- The flattening of a one-node forest with empty children is that node. -/
theorem flattenForest_single (t : String) (d : Int × String) (c : Int × Int × Int)
    (b i : Bool) : flattenForest [Node.mk t d c b i []] = [Node.mk t d c b i []] := by
  simp [flattenForest]

/-- Moving a block from the middle of a list to its end is a permutation. -/
theorem perm_shuffle {α : Type} (a : α) (A N B : List α) :
    (a :: (A ++ (N ++ B))).Perm ((a :: (A ++ B)) ++ N) := by
  refine List.Perm.cons a ?_
  have h1 : (A ++ (N ++ B)).Perm (A ++ (B ++ N)) :=
    List.Perm.append_left A List.perm_append_comm
  show (A ++ (N ++ B)).Perm ((A ++ B) ++ N)
  rw [List.append_assoc]
  exact h1

/-- Appending a child somewhere in the forest preserves the existence of
every node previously reachable by a path. -/
theorem getAt_appendAt : ∀ (p : List Nat) (F : List Node) (nw : Node) (q : List Nat)
    (m : Node), getAtForest F q = some m →
    (getAtForest (appendAtForest F p nw) q).isSome = true
  | [], F, nw, q, m, h => by
    show (getAtForest F q).isSome = true
    rw [h]
    rfl
  | k :: p', F, nw, q, m, h => by
    cases q with
    | nil => simp [getAtForest] at h
    | cons j q' =>
      cases hj : F[j]? with
      | none => rw [getAt_cons_none F j q' hj] at h; exact absurd h (by simp)
      | some nq =>
        by_cases hjk : j = k
        · subst hjk
          cases p' with
          | nil =>
            rw [appendAt_cons_nil]
            have hget : (modifyAt F j (fun n => withChildren n (Node.children n ++ [nw])))[j]?
                = some (withChildren nq (Node.children nq ++ [nw])) := by
              rw [modifyAt_getElem?, if_pos rfl, hj]
              rfl
            cases q' with
            | nil =>
              rw [getAt_cons_nil _ j _ hget]
              rfl
            | cons j2 q'' =>
              rw [getAt_cons_cons _ j _ j2 q'' hget, children_withChildren]
              rw [getAt_cons_cons F j nq j2 q'' hj] at h
              rw [getAt_append (j2 :: q'') (Node.children nq) [nw] m h]
              rfl
          | cons l p'' =>
            rw [appendAt_cons_cons]
            have hget : (modifyAt F j (fun n =>
                withChildren n (appendAtForest (Node.children n) (l :: p'') nw)))[j]?
                = some (withChildren nq (appendAtForest (Node.children nq) (l :: p'') nw)) := by
              rw [modifyAt_getElem?, if_pos rfl, hj]
              rfl
            cases q' with
            | nil =>
              rw [getAt_cons_nil _ j _ hget]
              rfl
            | cons j2 q'' =>
              rw [getAt_cons_cons _ j _ j2 q'' hget, children_withChildren]
              rw [getAt_cons_cons F j nq j2 q'' hj] at h
              exact getAt_appendAt (l :: p'') (Node.children nq) nw (j2 :: q'') m h
        · have hget : ∀ g : Node → Node, (modifyAt F k g)[j]? = some nq := by
            intro g
            rw [modifyAt_getElem?, if_neg hjk, hj]
          cases p' with
          | nil =>
            rw [appendAt_cons_nil]
            cases q' with
            | nil =>
              rw [getAt_cons_nil _ j _ (hget _)]
              rfl
            | cons j2 q'' =>
              rw [getAt_cons_cons _ j nq j2 q'' (hget _)]
              rw [getAt_cons_cons F j nq j2 q'' hj] at h
              rw [h]
              rfl
          | cons l p'' =>
            rw [appendAt_cons_cons]
            cases q' with
            | nil =>
              rw [getAt_cons_nil _ j _ (hget _)]
              rfl
            | cons j2 q'' =>
              rw [getAt_cons_cons _ j nq j2 q'' (hget _)]
              rw [getAt_cons_cons F j nq j2 q'' hj] at h
              rw [h]
              rfl

/-- After appending a child at a valid path, the child itself is reachable
by that path extended with the parent's former child count. -/
theorem getAt_new_child : ∀ (p : List Nat) (F : List Node) (nw m : Node),
    getAtForest F p = some m →
    getAtForest (appendAtForest F p nw) (p ++ [(Node.children m).length]) = some nw
  | [], F, nw, m, h => by simp [getAtForest] at h
  | k :: p', F, nw, m, h => by
    cases hk : F[k]? with
    | none => rw [getAt_cons_none F k p' hk] at h; exact absurd h (by simp)
    | some n =>
      cases p' with
      | nil =>
        rw [getAt_cons_nil F k n hk] at h
        injection h with hm
        subst hm
        rw [appendAt_cons_nil]
        have hget : (modifyAt F k (fun nd => withChildren nd (Node.children nd ++ [nw])))[k]?
            = some (withChildren n (Node.children n ++ [nw])) := by
          rw [modifyAt_getElem?, if_pos rfl, hk]
          rfl
        show getAtForest _ (k :: [(Node.children n).length]) = some nw
        rw [getAt_cons_cons _ k _ _ [] hget, children_withChildren]
        exact getAt_concat_new (Node.children n) nw
      | cons j p'' =>
        rw [getAt_cons_cons F k n j p'' hk] at h
        rw [appendAt_cons_cons]
        have hget : (modifyAt F k (fun nd =>
            withChildren nd (appendAtForest (Node.children nd) (j :: p'') nw)))[k]?
            = some (withChildren n (appendAtForest (Node.children n) (j :: p'') nw)) := by
          rw [modifyAt_getElem?, if_pos rfl, hk]
          rfl
        show getAtForest _ (k :: (j :: (p'' ++ [(Node.children m).length]))) = some nw
        rw [getAt_cons_cons _ k _ j (p'' ++ [(Node.children m).length]) hget,
          children_withChildren]
        exact getAt_new_child (j :: p'') (Node.children n) nw m h

/-- Appending a child at a valid path adds exactly that node's fields to the
flattened forest, up to position. -/
theorem flatten_appendAt : ∀ (p : List Nat) (F : List Node) (nw : Node),
    (getAtForest F p).isSome = true →
    ((flattenForest (appendAtForest F p nw)).map nodeFields).Perm
      ((flattenForest F).map nodeFields ++ (flattenForest [nw]).map nodeFields)
  | [], F, nw, h => by simp [getAtForest] at h
  | k :: p', [], nw, h => by
    rw [getAt_cons_none [] k p' (by simp)] at h
    simp at h
  | 0 :: p', Node.mk t d c b i ch :: rest, nw, h => by
    cases p' with
    | nil =>
      have he : appendAtForest (Node.mk t d c b i ch :: rest) [0] nw
          = Node.mk t d c b i (ch ++ [nw]) :: rest := by
        rw [appendAt_cons_nil]
        rfl
      rw [he]
      simp only [flattenForest, flattenForest_append, List.map_cons, List.map_append,
        nodeFields]
      rw [List.append_assoc]
      exact perm_shuffle _ _ _ _
    | cons j p'' =>
      have he : appendAtForest (Node.mk t d c b i ch :: rest) (0 :: j :: p'') nw
          = Node.mk t d c b i (appendAtForest ch (j :: p'') nw) :: rest := by
        rw [appendAt_cons_cons]
        rfl
      have hh : (getAtForest ch (j :: p'')).isSome = true := by
        rw [getAt_cons_cons (Node.mk t d c b i ch :: rest) 0 (Node.mk t d c b i ch) j p''
          List.getElem?_cons_zero] at h
        exact h
      have ih := flatten_appendAt (j :: p'') ch nw hh
      rw [he]
      simp only [flattenForest, List.map_cons, List.map_append, nodeFields]
      refine List.Perm.trans (List.Perm.cons _ (List.Perm.append_right _ ih)) ?_
      rw [List.append_assoc]
      exact perm_shuffle _ _ _ _
  | (k + 1) :: p', x :: rest, nw, h => by
    have he : appendAtForest (x :: rest) ((k + 1) :: p') nw
        = x :: appendAtForest rest (k :: p') nw := rfl
    have hh : (getAtForest rest (k :: p')).isSome = true := by
      rw [getAt_cons_succ] at h
      exact h
    have ih := flatten_appendAt (k :: p') rest nw hh
    rw [he]
    cases x with
    | mk t d c b i ch =>
      simp only [flattenForest, List.map_cons, List.map_append, nodeFields]
      refine List.Perm.trans (List.Perm.cons _ (List.Perm.append_left _ ih)) ?_
      rw [List.cons_append, List.append_assoc]
termination_by p F => (p.length, F.length)

/-- One loop iteration of the tree builder adds exactly one node carrying
the entry's fields to the flattened forest, and keeps every recorded
latest-seen-ancestor path valid. -/
theorem buildStep_sound (st : BuildState) (e : Entry)
    (hv : ∀ q ∈ st.lastNodes, (getAtForest st.root q.2).isSome = true) :
    ((flattenForest (buildStep st e).root).map nodeFields).Perm
      ((flattenForest st.root).map nodeFields ++ [nodeFields (mkBookmarkNode e)])
    ∧ ∀ q ∈ (buildStep st e).lastNodes,
        (getAtForest (buildStep st e).root q.2).isSome = true := by
  have hflat1 : flattenForest [mkBookmarkNode e] = [mkBookmarkNode e] :=
    flattenForest_single e.title (e.page, "Fit") (0, 0, 0) false false
  have hroot : ∀ lvl : Int,
      ((flattenForest (st.root ++ [mkBookmarkNode e])).map nodeFields).Perm
        ((flattenForest st.root).map nodeFields ++ [nodeFields (mkBookmarkNode e)])
      ∧ ∀ q ∈ ((lvl, [st.root.length]) :: st.lastNodes),
          (getAtForest (st.root ++ [mkBookmarkNode e]) q.2).isSome = true := by
    intro lvl
    constructor
    · rw [flattenForest_append, hflat1]
      simp only [List.map_append, List.map_cons, List.map_nil]
      exact List.Perm.refl _
    · intro q hq
      rcases List.mem_cons.1 hq with rfl | hq'
      · rw [getAt_concat_new]
        rfl
      · obtain ⟨m, hm⟩ := Option.isSome_iff_exists.1 (hv q hq')
        rw [getAt_append q.2 st.root [mkBookmarkNode e] m hm]
        rfl
  unfold buildStep
  by_cases hl : clampLevel e.level = 1
  · rw [if_pos hl]
    exact hroot _
  · rw [if_neg hl]
    cases hlk : lookupLevel st.lastNodes (clampLevel e.level - 1) with
    | none =>
      simp only [hlk]
      exact hroot _
    | some ppath =>
      have hps : (getAtForest st.root ppath).isSome = true := by
        unfold lookupLevel at hlk
        cases hfind : st.lastNodes.find? (fun q => q.1 == clampLevel e.level - 1) with
        | none => rw [hfind] at hlk; simp at hlk
        | some qq =>
          rw [hfind] at hlk
          simp only [Option.map_some', Option.some.injEq] at hlk
          rw [← hlk]
          exact hv qq (List.mem_of_find?_eq_some hfind)
      obtain ⟨m, hm⟩ := Option.isSome_iff_exists.1 hps
      simp only [hlk, hm]
      constructor
      · have hperm := flatten_appendAt ppath st.root (mkBookmarkNode e) hps
        rw [hflat1] at hperm
        simpa using hperm
      · intro q hq
        rcases List.mem_cons.1 hq with rfl | hq'
        · rw [getAt_new_child ppath st.root (mkBookmarkNode e) m hm]
          rfl
        · obtain ⟨m2, hm2⟩ := Option.isSome_iff_exists.1 (hv q hq')
          exact getAt_appendAt ppath st.root (mkBookmarkNode e) q.2 m2 hm2

/-- Folding the loop body over any entry suffix appends exactly one node's
fields per entry to the flattened forest, as a multiset. -/
theorem build_inv : ∀ (es : List Entry) (st : BuildState),
    (∀ q ∈ st.lastNodes, (getAtForest st.root q.2).isSome = true) →
    ((flattenForest (List.foldl buildStep st es).root).map nodeFields).Perm
      ((flattenForest st.root).map nodeFields
        ++ es.map (fun e => nodeFields (mkBookmarkNode e)))
  | [], st, hv => by simp
  | e :: es, st, hv => by
    have hstep := buildStep_sound st e hv
    have ih := build_inv es (buildStep st e) hstep.2
    rw [List.foldl_cons]
    refine ih.trans ?_
    have h2 : (((flattenForest st.root).map nodeFields ++ [nodeFields (mkBookmarkNode e)])
          ++ es.map (fun x => nodeFields (mkBookmarkNode x)))
        = (flattenForest st.root).map nodeFields
          ++ (e :: es).map (fun x => nodeFields (mkBookmarkNode x)) := by
      simp
    have h3 := hstep.1.append_right (es.map (fun x => nodeFields (mkBookmarkNode x)))
    rw [h2] at h3
    exact h3

/-- C10: the tree builder conserves entries — the pre-order flattening of
the resulting forest has exactly one node per input entry (as a multiset of
field tuples, hence also in count), each node carrying its entry's title,
the destination `[page, "Fit"]`, black color, bold and italic false; and
every node is created with empty children. -/
theorem claim_C10_conservation (entries : List Entry) :
    ((flattenForest (build_bookmark_tree entries)).map nodeFields).Perm
      (entries.map entryFields)
    ∧ (flattenForest (build_bookmark_tree entries)).length = entries.length
    ∧ ∀ e : Entry, mkBookmarkNode e
        = Node.mk e.title (e.page, "Fit") (0, 0, 0) false false [] := by
  have hfun : (fun e => nodeFields (mkBookmarkNode e)) = entryFields :=
    funext fun e => rfl
  have h := build_inv entries ⟨[], []⟩ (by intro q hq; simp at hq)
  have h' : ((flattenForest (build_bookmark_tree entries)).map nodeFields).Perm
      (entries.map entryFields) := by
    simpa [build_bookmark_tree, hfun, flattenForest] using h
  refine ⟨h', ?_, fun e => rfl⟩
  have hlen := h'.length_eq
  simpa using hlen

/-- Witness for the amended C3 on the concrete line "1. .... 5". -/
theorem claim_C3_witness :
    parse_toc_line (String.mk (sectionCore [['1']]
        ++ ((if true then ['.'] else []) ++ ' ' :: (List.replicate 4 '.' ++ ' ' :: ['5']))))
      = some (String.mk (sectionCore [['1']] ++ [' ']),
              ((sectionCore [['1']]).count '.' : Int) + 1,
              (digitsToNat ['5'] : Int)) :=
  claim_C3_empty_title_parses [['1']] true 4 ['5'] (by decide) (by decide) (by omega)
    (by decide) (by decide)

/-- C8: leader-dot stripping is idempotent, both on strings and on the
underlying character lists used by the parser. -/
theorem claim_C8_stripdots_idempotent (s : String) :
    stripDotsStr (stripDotsStr s) = stripDotsStr s
    ∧ stripDots (stripDots s.toList) = stripDots s.toList := by
  have key : ∀ l : List Char, stripDots (stripDots l) = stripDots l := by
    intro l
    exact (stripDotsGo_fix (stripDotsGo 0 l) (noDD_stripDotsGo l 0)).1
  refine ⟨?_, key s.toList⟩
  unfold stripDotsStr
  congr 1
  show stripDots (stripDots s.toList) = stripDots s.toList
  exact key s.toList
